import Mathlib

/-!
Verification development for the DETR set-prediction matching-and-loss core
(src/modules/model.py).  Pure functions of the source are embedded as Lean
definitions over exact arithmetic; the per-image loss and the batch loop of
DETR.get_loss are embedded as explicit folds.  The box-geometry helpers live
in iou.py, which is not available, so they are modelled from the spec
(section 4.1); scipy.optimize.linear_sum_assignment is an external library,
modelled by its documented contract as an exact rectangular
linear-assignment solver (argmin over an exhaustive enumeration of injective
assignments).
-/

namespace DETRCore

/-! ## Box geometry

Modelled from the spec: iou.py (class GIoULoss) is not under src/, so the
corner conversion, intersection, union, enclosing box, IoU and GIoU follow
spec section 4.1 word for word; the GIoU loss used by get_loss is 1 - giou. -/

/-- A box in center/size representation (cx, cy, w, h), as produced by the
box head and as supplied for ground truth. -/
structure Box (α : Type) where
  cx : α
  cy : α
  w : α
  h : α

/-- A box in corner representation (x_min, y_min, x_max, y_max). -/
structure Corners (α : Type) where
  x1 : α
  y1 : α
  x2 : α
  y2 : α

variable {α : Type} [LinearOrderedField α]

/-- Modelled from the spec: center/size to corner conversion (spec 4.1). -/
def to_corners (b : Box α) : Corners α :=
  ⟨b.cx - b.w / 2, b.cy - b.h / 2, b.cx + b.w / 2, b.cy + b.h / 2⟩

/-- Area of a corner box. -/
def area (c : Corners α) : α := (c.x2 - c.x1) * (c.y2 - c.y1)

/-- Modelled from the spec: clamped intersection area (spec 4.1). -/
def intersection_area (a b : Corners α) : α :=
  max 0 (min a.x2 b.x2 - max a.x1 b.x1) * max 0 (min a.y2 b.y2 - max a.y1 b.y1)

/-- Modelled from the spec: union area (spec 4.1). -/
def union_area (a b : Corners α) : α := area a + area b - intersection_area a b

/-- Modelled from the spec: IoU with a defensive zero when the union is
degenerate (spec 4.1). -/
def iou (a b : Corners α) : α :=
  if union_area a b = 0 then 0 else intersection_area a b / union_area a b

/-- Modelled from the spec: smallest axis-aligned box containing both
(spec 4.1). -/
def enclosing_box (a b : Corners α) : Corners α :=
  ⟨min a.x1 b.x1, min a.y1 b.y1, max a.x2 b.x2, max a.y2 b.y2⟩

/-- Modelled from the spec: generalized IoU (spec 4.1). -/
def giou (a b : Corners α) : α :=
  iou a b - (area (enclosing_box a b) - union_area a b) / area (enclosing_box a b)

/-- Modelled from the spec: the value GIoULoss contributes for one
prediction/ground-truth pair, namely 1 - giou on the corner forms
(spec 4.1: the GIoU loss used downstream is 1 - giou). -/
def giou_loss_pair (p g : Box α) : α := 1 - giou (to_corners p) (to_corners g)

/-- Corner boxes with nonnegative extent, as produced by to_corners from a
box with nonnegative width and height (the data-model invariant). -/
def validCorners (c : Corners α) : Prop := c.x1 ≤ c.x2 ∧ c.y1 ≤ c.y2

theorem validCorners_to_corners {p : Box α} (hw : 0 ≤ p.w) (hh : 0 ≤ p.h) :
    validCorners (to_corners p) := by
  constructor <;> simp [to_corners] <;> linarith

theorem intersection_area_comm (a b : Corners α) :
    intersection_area a b = intersection_area b a := by
  rw [intersection_area, intersection_area, min_comm a.x2 b.x2, max_comm a.x1 b.x1,
    min_comm a.y2 b.y2, max_comm a.y1 b.y1]

theorem union_area_comm (a b : Corners α) : union_area a b = union_area b a := by
  rw [union_area, union_area, intersection_area_comm]
  ring

theorem enclosing_box_comm (a b : Corners α) : enclosing_box a b = enclosing_box b a := by
  rw [enclosing_box, enclosing_box, min_comm a.x1 b.x1, min_comm a.y1 b.y1,
    max_comm a.x2 b.x2, max_comm a.y2 b.y2]

theorem iou_comm (a b : Corners α) : iou a b = iou b a := by
  rw [iou, iou, union_area_comm, intersection_area_comm]

theorem giou_comm (a b : Corners α) : giou a b = giou b a := by
  rw [giou, giou, iou_comm, union_area_comm, enclosing_box_comm]

theorem intersection_area_nonneg (a b : Corners α) : 0 ≤ intersection_area a b :=
  mul_nonneg (le_max_left 0 _) (le_max_left 0 _)

theorem area_nonneg {c : Corners α} (h : validCorners c) : 0 ≤ area c :=
  mul_nonneg (sub_nonneg.mpr h.1) (sub_nonneg.mpr h.2)

theorem intersection_le_area_left {a : Corners α} (ha : validCorners a) (b : Corners α) :
    intersection_area a b ≤ area a := by
  have hx : max 0 (min a.x2 b.x2 - max a.x1 b.x1) ≤ a.x2 - a.x1 :=
    max_le (sub_nonneg.mpr ha.1)
      (sub_le_sub (min_le_left _ _) (le_max_left _ _))
  have hy : max 0 (min a.y2 b.y2 - max a.y1 b.y1) ≤ a.y2 - a.y1 :=
    max_le (sub_nonneg.mpr ha.2)
      (sub_le_sub (min_le_left _ _) (le_max_left _ _))
  exact mul_le_mul hx hy (le_max_left 0 _) (sub_nonneg.mpr ha.1)

theorem intersection_le_area_right (a : Corners α) {b : Corners α} (hb : validCorners b) :
    intersection_area a b ≤ area b := by
  rw [intersection_area_comm]
  exact intersection_le_area_left hb a

theorem union_area_nonneg {a b : Corners α} (ha : validCorners a) (hb : validCorners b) :
    0 ≤ union_area a b := by
  rw [union_area]
  linarith [intersection_le_area_right a hb, area_nonneg ha]

theorem iou_le_one {a b : Corners α} (ha : validCorners a) (hb : validCorners b) :
    iou a b ≤ 1 := by
  rw [iou]
  split
  · exact zero_le_one
  · rename_i hne
    have hpos : 0 < union_area a b := lt_of_le_of_ne (union_area_nonneg ha hb) (Ne.symm hne)
    rw [div_le_one hpos, union_area]
    linarith [intersection_le_area_left ha b, intersection_le_area_right a hb]

theorem quad_area_ineq (wa ka wb kb ew eh iw ih : α)
    (h1 : 0 ≤ wa) (h2 : 0 ≤ ka) (h3 : 0 ≤ wb) (h4 : 0 ≤ kb)
    (h7 : ka ≤ eh) (h11 : iw ≤ wa) (h12 : iw ≤ wb) (h13 : ih ≤ ka) (h14 : ih ≤ kb)
    (h15 : wa + wb ≤ ew + iw) (h16 : ka + kb ≤ eh + ih) :
    wa * ka + wb * kb - iw * ih ≤ ew * eh := by
  have heh : 0 ≤ eh := le_trans h2 h7
  nlinarith [mul_nonneg (sub_nonneg.mpr h11) (sub_nonneg.mpr h14),
    mul_nonneg (sub_nonneg.mpr h12) (sub_nonneg.mpr h13),
    mul_nonneg (by linarith : (0 : α) ≤ wa + wb - iw) (by linarith : (0 : α) ≤ eh + ih - ka - kb),
    mul_nonneg (by linarith : (0 : α) ≤ ew + iw - wa - wb) heh]

theorem union_le_enclosing_area {a b : Corners α}
    (ha : validCorners a) (hb : validCorners b) :
    union_area a b ≤ area (enclosing_box a b) := by
  rw [union_area, area, area, area, enclosing_box, intersection_area]
  refine quad_area_ineq (a.x2 - a.x1) (a.y2 - a.y1) (b.x2 - b.x1) (b.y2 - b.y1)
    (max a.x2 b.x2 - min a.x1 b.x1) (max a.y2 b.y2 - min a.y1 b.y1)
    (max 0 (min a.x2 b.x2 - max a.x1 b.x1)) (max 0 (min a.y2 b.y2 - max a.y1 b.y1))
    (sub_nonneg.mpr ha.1) (sub_nonneg.mpr ha.2) (sub_nonneg.mpr hb.1) (sub_nonneg.mpr hb.2)
    ?_ ?_ ?_ ?_ ?_ ?_ ?_
  · exact sub_le_sub (le_max_left _ _) (min_le_left _ _)
  · exact max_le (sub_nonneg.mpr ha.1) (sub_le_sub (min_le_left _ _) (le_max_left _ _))
  · exact max_le (sub_nonneg.mpr hb.1) (sub_le_sub (min_le_right _ _) (le_max_right _ _))
  · exact max_le (sub_nonneg.mpr ha.2) (sub_le_sub (min_le_left _ _) (le_max_left _ _))
  · exact max_le (sub_nonneg.mpr hb.2) (sub_le_sub (min_le_right _ _) (le_max_right _ _))
  · have hx2 := max_add_min a.x2 b.x2
    have hx1 := max_add_min a.x1 b.x1
    have hmax := le_max_right (0 : α) (min a.x2 b.x2 - max a.x1 b.x1)
    linarith
  · have hy2 := max_add_min a.y2 b.y2
    have hy1 := max_add_min a.y1 b.y1
    have hmax := le_max_right (0 : α) (min a.y2 b.y2 - max a.y1 b.y1)
    linarith

theorem giou_le_one {a b : Corners α} (ha : validCorners a) (hb : validCorners b) :
    giou a b ≤ 1 := by
  rw [giou]
  rcases eq_or_lt_of_le (area_nonneg ⟨le_trans (min_le_left _ _) (ha.1.trans (le_max_left _ _)),
      le_trans (min_le_left _ _) (ha.2.trans (le_max_left _ _))⟩ :
      0 ≤ area (enclosing_box a b)) with hz | hpos
  · rw [← hz, div_zero]
    linarith [iou_le_one ha hb]
  · have hfrac : 0 ≤ (area (enclosing_box a b) - union_area a b) / area (enclosing_box a b) :=
      div_nonneg (sub_nonneg.mpr (union_le_enclosing_area ha hb)) hpos.le
    linarith [iou_le_one ha hb]

theorem giou_loss_pair_nonneg {p g : Box α}
    (hpw : 0 ≤ p.w) (hph : 0 ≤ p.h) (hgw : 0 ≤ g.w) (hgh : 0 ≤ g.h) :
    0 ≤ giou_loss_pair p g := by
  rw [giou_loss_pair]
  linarith [giou_le_one (validCorners_to_corners hpw hph) (validCorners_to_corners hgw hgh)]

/-! ## Assignment solver

scipy.optimize.linear_sum_assignment is external to the repository; it is
modelled by its documented contract: an exact solver for the rectangular
linear assignment problem that returns min(N, M) pairs, implemented here as
an argmin over an exhaustive enumeration of all injective assignments. -/

section Solver

variable {β : Type} [LinearOrderedAddCommMonoid β]

/-- Total cost of an assignment given as a list whose j-th element is the
row (slot) assigned to column (object) j. -/
def assignCost (cost : ℕ → ℕ → β) (l : List ℕ) : β :=
  (l.enum.map (fun ji => cost ji.2 ji.1)).sum

/-- Rows below N not already used by the partial assignment l. -/
def slotChoices (N : ℕ) (l : List ℕ) : List ℕ :=
  (List.range N).filter (fun r => decide (r ∉ l))

/-- All injective assignments of M columns to rows below N, each encoded as
a length-M duplicate-free list of row indices. -/
def allAssignments (N : ℕ) : ℕ → List (List ℕ)
  | 0 => [[]]
  | M + 1 =>
    (allAssignments N M).flatMap (fun l => (slotChoices N l).map (fun r => l ++ [r]))

/-- A list encodes a valid injective assignment of M objects to slots below
N: length M, no slot repeated, every slot index below N. -/
def validAssign (N M : ℕ) (l : List ℕ) : Prop :=
  l.length = M ∧ l.Nodup ∧ ∀ x ∈ l, x < N

/-- Model of scipy.optimize.linear_sum_assignment on an N-by-M cost matrix:
returns min(N, M) pairs (row index, column index) of an assignment of
minimum total cost.  When the matrix has more columns than rows the problem
is solved on the transpose, mirroring the documented rectangular behavior
(each row assigned, columns used at most once). -/
def linear_sum_assignment (cost : ℕ → ℕ → β) (N M : ℕ) : List (ℕ × ℕ) :=
  if M ≤ N then
    match (allAssignments N M).argmin (assignCost cost) with
    | some l => l.enum.map (fun ji => (ji.2, ji.1))
    | none => []
  else
    match (allAssignments M N).argmin (assignCost (fun i j => cost j i)) with
    | some l => l.enum
    | none => []

theorem mem_allAssignments {N M : ℕ} {l : List ℕ} :
    l ∈ allAssignments N M ↔ validAssign N M l := by
  induction M generalizing l with
  | zero =>
    simp [allAssignments, validAssign, List.length_eq_zero]
    rintro rfl
    simp
  | succ M ih =>
    constructor
    · intro hmem
      rw [allAssignments, List.mem_flatMap] at hmem
      obtain ⟨l1, hl1, hmap⟩ := hmem
      rw [List.mem_map] at hmap
      obtain ⟨r, hr, rfl⟩ := hmap
      rw [slotChoices, List.mem_filter, List.mem_range, decide_eq_true_eq] at hr
      obtain ⟨hl1len, hl1nd, hl1lt⟩ := ih.mp hl1
      refine ⟨by simp [hl1len], ?_, ?_⟩
      · rw [List.nodup_append]
        exact ⟨hl1nd, List.nodup_singleton r, by
          intro y hy hy1
          rw [List.mem_singleton] at hy1
          exact hr.2 (hy1 ▸ hy)⟩
      · intro x hx
        rw [List.mem_append, List.mem_singleton] at hx
        rcases hx with hx | rfl
        · exact hl1lt x hx
        · exact hr.1
    · rintro ⟨hlen, hnd, hlt⟩
      have hne : l ≠ [] := by
        intro h
        rw [h] at hlen
        simp at hlen
      have hsplit := List.dropLast_append_getLast hne
      rw [allAssignments, List.mem_flatMap]
      refine ⟨l.dropLast, ih.mpr ⟨?_, ?_, ?_⟩, ?_⟩
      · rw [List.length_dropLast, hlen]
        rfl
      · exact hnd.sublist (List.dropLast_sublist l)
      · intro x hx
        exact hlt x ((List.dropLast_sublist l).subset hx)
      · rw [List.mem_map]
        refine ⟨l.getLast hne, ?_, hsplit⟩
        rw [slotChoices, List.mem_filter, List.mem_range, decide_eq_true_eq]
        refine ⟨hlt _ (List.getLast_mem hne), ?_⟩
        intro hmem
        rw [← hsplit, List.nodup_append] at hnd
        exact hnd.2.2 hmem (List.mem_singleton_self _)

theorem range_mem_allAssignments {N M : ℕ} (h : M ≤ N) :
    List.range M ∈ allAssignments N M :=
  mem_allAssignments.mpr
    ⟨List.length_range M, List.nodup_range M, fun x hx =>
      lt_of_lt_of_le (List.mem_range.mp hx) h⟩

theorem lsa_some_of_le {β : Type} [LinearOrderedAddCommMonoid β]
    (f : List ℕ → β) {N M : ℕ} (h : M ≤ N) :
    ∃ l0, (allAssignments N M).argmin f = some l0 := by
  cases hcase : (allAssignments N M).argmin f with
  | none =>
    exfalso
    rw [List.argmin_eq_none] at hcase
    have hmem := range_mem_allAssignments h
    rw [hcase] at hmem
    exact absurd hmem (List.not_mem_nil _)
  | some l => exact ⟨l, rfl⟩

theorem pairs_shape (l0 : List ℕ) :
    (l0.enum.map (fun ji => (ji.2, ji.1))).map Prod.snd = List.range l0.length ∧
      (l0.enum.map (fun ji => (ji.2, ji.1))).map Prod.fst = l0 := by
  constructor
  · rw [List.map_map]
    have h1 : (Prod.snd ∘ fun ji : ℕ × ℕ => (ji.2, ji.1)) = Prod.fst := rfl
    rw [h1, List.enum_map_fst]
  · rw [List.map_map]
    have h2 : (Prod.fst ∘ fun ji : ℕ × ℕ => (ji.2, ji.1)) = Prod.snd := rfl
    rw [h2, List.enum_map_snd]

theorem pairs_cost_eq {β : Type} [LinearOrderedAddCommMonoid β]
    (cost : ℕ → ℕ → β) (l0 : List ℕ) :
    ((l0.enum.map (fun ji => (ji.2, ji.1))).map (fun p => cost p.1 p.2)).sum
      = assignCost cost l0 := by
  rw [List.map_map, assignCost]
  rfl

end Solver

/-- C4: for every N-by-M cost matrix with N greater or equal M, the modelled
assignment solver used by get_loss returns exactly M pairs (slot, object)
whose object components are 0, 1, ..., M-1 each exactly once, whose slot
components are pairwise distinct and below N, and whose total cost is
minimal over every injective assignment of the M objects to slots. -/
theorem lsa_optimal {β : Type} [LinearOrderedAddCommMonoid β]
    (cost : ℕ → ℕ → β) (N M : ℕ) (hMN : M ≤ N) :
    (linear_sum_assignment cost N M).length = M ∧
    (linear_sum_assignment cost N M).map Prod.snd = List.range M ∧
    ((linear_sum_assignment cost N M).map Prod.fst).Nodup ∧
    (∀ p ∈ linear_sum_assignment cost N M, p.1 < N) ∧
    (∀ l, validAssign N M l →
      ((linear_sum_assignment cost N M).map (fun p => cost p.1 p.2)).sum
        ≤ assignCost cost l) := by
  obtain ⟨l0, hl0⟩ := lsa_some_of_le (assignCost cost) hMN
  have hP : linear_sum_assignment cost N M = l0.enum.map (fun ji => (ji.2, ji.1)) := by
    rw [linear_sum_assignment, if_pos hMN, hl0]
  have hmem : l0 ∈ allAssignments N M := List.argmin_mem (Option.mem_def.mpr hl0)
  obtain ⟨hlen, hnd, hlt⟩ := mem_allAssignments.mp hmem
  obtain ⟨hsnd, hfst⟩ := pairs_shape l0
  refine ⟨?_, ?_, ?_, ?_, ?_⟩
  · rw [hP, List.length_map, List.enum_length, hlen]
  · rw [hP, hsnd, hlen]
  · rw [hP, hfst]
    exact hnd
  · intro p hp
    have hp1 : p.1 ∈ (linear_sum_assignment cost N M).map Prod.fst :=
      List.mem_map_of_mem Prod.fst hp
    rw [hP, hfst] at hp1
    exact hlt p.1 hp1
  · intro l hl
    rw [hP, pairs_cost_eq]
    exact List.le_of_mem_argmin (mem_allAssignments.mpr hl) (Option.mem_def.mpr hl0)

/-- Witness for C4 at the concrete 2-by-1 integer cost matrix with entries
7 and 3: the hypothesis M less or equal N holds and the solver conclusion
follows by applying the theorem. -/
theorem lsa_optimal_witness :
    (1 : ℕ) ≤ 2 ∧
    ((linear_sum_assignment (fun i j => 7 - 4 * (i : ℤ) + (j : ℤ)) 2 1).length = 1 ∧
    (linear_sum_assignment (fun i j => 7 - 4 * (i : ℤ) + (j : ℤ)) 2 1).map Prod.snd
      = List.range 1 ∧
    ((linear_sum_assignment (fun i j => 7 - 4 * (i : ℤ) + (j : ℤ)) 2 1).map Prod.fst).Nodup ∧
    (∀ p ∈ linear_sum_assignment (fun i j => 7 - 4 * (i : ℤ) + (j : ℤ)) 2 1, p.1 < 2) ∧
    (∀ l, validAssign 2 1 l →
      ((linear_sum_assignment (fun i j => 7 - 4 * (i : ℤ) + (j : ℤ)) 2 1).map
        (fun p => (7 - 4 * (p.1 : ℤ) + (p.2 : ℤ)))).sum
        ≤ assignCost (fun i j => 7 - 4 * (i : ℤ) + (j : ℤ)) l)) :=
  ⟨by decide, lsa_optimal (fun i j => 7 - 4 * (i : ℤ) + (j : ℤ)) 2 1 (by decide)⟩

/-- C5 counterexample: on the concrete 1-by-2 cost matrix with row (5, 3)
(one query slot, two ground-truth objects, so M is greater than N), the
assignment step used by get_loss does not fail at all: it returns the single
pair (0, 1), so object 0 is silently left unmatched, contradicting the
claim that the mismatch surfaces as an AssignmentError and is never
silently ignored. -/
theorem lsa_overflow_cex :
    linear_sum_assignment (fun _ j => 5 - 2 * (j : ℤ)) 1 2 = [(0, 1)] ∧
    (linear_sum_assignment (fun _ j => 5 - 2 * (j : ℤ)) 1 2).length ≠ 2 ∧
    ¬ ∃ p ∈ linear_sum_assignment (fun _ j => 5 - 2 * (j : ℤ)) 1 2, p.2 = 0 := by
  refine ⟨?_, by decide, by decide⟩
  rfl

/-- C5 amended: when an image has more ground-truth objects than query
slots (M greater than N), the assignment step does not fail; mirroring the
documented rectangular behavior of scipy.optimize.linear_sum_assignment it
returns N pairs, each slot index used exactly once and the object indices
pairwise distinct and below M, silently matching only N of the M objects. -/
theorem lsa_overflow_truncates {β : Type} [LinearOrderedAddCommMonoid β]
    (cost : ℕ → ℕ → β) (N M : ℕ) (hNM : N < M) :
    (linear_sum_assignment cost N M).length = N ∧
    (linear_sum_assignment cost N M).map Prod.fst = List.range N ∧
    ((linear_sum_assignment cost N M).map Prod.snd).Nodup ∧
    (∀ p ∈ linear_sum_assignment cost N M, p.2 < M) := by
  obtain ⟨l0, hl0⟩ := lsa_some_of_le (assignCost (fun i j => cost j i)) hNM.le
  have hP : linear_sum_assignment cost N M = l0.enum := by
    rw [linear_sum_assignment, if_neg (not_le.mpr hNM), hl0]
  have hmem : l0 ∈ allAssignments M N := List.argmin_mem (Option.mem_def.mpr hl0)
  obtain ⟨hlen, hnd, hlt⟩ := mem_allAssignments.mp hmem
  refine ⟨?_, ?_, ?_, ?_⟩
  · rw [hP, List.enum_length, hlen]
  · rw [hP, List.enum_map_fst, hlen]
  · rw [hP, List.enum_map_snd]
    exact hnd
  · intro p hp
    have hp2 : p.2 ∈ (linear_sum_assignment cost N M).map Prod.snd :=
      List.mem_map_of_mem Prod.snd hp
    rw [hP, List.enum_map_snd] at hp2
    exact hlt p.2 hp2

/-- Witness for the amended C5 at the same concrete 1-by-2 matrix. -/
theorem lsa_overflow_truncates_witness :
    (1 : ℕ) < 2 ∧
    ((linear_sum_assignment (fun _ j => 5 - 2 * (j : ℤ)) 1 2).length = 1 ∧
    (linear_sum_assignment (fun _ j => 5 - 2 * (j : ℤ)) 1 2).map Prod.fst = List.range 1 ∧
    ((linear_sum_assignment (fun _ j => 5 - 2 * (j : ℤ)) 1 2).map Prod.snd).Nodup ∧
    (∀ p ∈ linear_sum_assignment (fun _ j => 5 - 2 * (j : ℤ)) 1 2, p.2 < 2)) :=
  ⟨by decide, lsa_overflow_truncates (fun _ j => 5 - 2 * (j : ℤ)) 1 2 (by decide)⟩

/-! ## Loss composer (DETR.get_loss)

One element of the batch lists zipped by the loop of get_loss: the ground
truth (labels, gt_bboxes) and the per-slot predictions for one image.
Slot and object data are total functions over the natural indices; only
indices below num_query_slots, resp. M, are ever read. -/
structure ImageData where
  M : ℕ
  label : ℕ → ℕ
  gtBox : ℕ → Box ℝ
  predBox : ℕ → Box ℝ
  predProb : ℕ → ℕ → ℝ

/-- Entry (i, j) of the matrix match_loss built by get_loss:
-label_prob + giou, where label_prob i j = pred_prob[i, label[j]] and giou
is the GIoU loss matrix from GIoULoss. -/
noncomputable def matchCost (d : ImageData) (i j : ℕ) : ℝ :=
  -(d.predProb i (d.label j)) + giou_loss_pair (d.predBox i) (d.gtBox j)

/-- The pairs (pred_indices, gt_indices) returned by
scipy.optimize.linear_sum_assignment on the match_loss matrix. -/
noncomputable def matchedPairs (num_query_slots : ℕ) (d : ImageData) : List (ℕ × ℕ) :=
  linear_sum_assignment (matchCost d) num_query_slots d.M

/-- The L1 distance between two boxes used by the l1_weight term:
torch.sum of the componentwise absolute differences. -/
def l1Box (a b : Box ℝ) : ℝ :=
  |a.cx - b.cx| + |a.cy - b.cy| + |a.w - b.w| + |a.h - b.h|

/-- The loss accumulated for one image by the loop body of get_loss:
no_obj_weight times the sum over matched pairs of -log(label_prob), plus
giou_weight times the sum of the matched GIoU losses, plus l1_weight times
the sum of the matched L1 distances. -/
noncomputable def perImageLoss (num_query_slots : ℕ)
    (no_obj_weight l1_weight giou_weight : ℝ) (d : ImageData) : ℝ :=
  no_obj_weight * ((matchedPairs num_query_slots d).map
      (fun p => -Real.log (d.predProb p.1 (d.label p.2)))).sum
    + giou_weight * ((matchedPairs num_query_slots d).map
      (fun p => giou_loss_pair (d.predBox p.1) (d.gtBox p.2))).sum
    + l1_weight * ((matchedPairs num_query_slots d).map
      (fun p => l1Box (d.predBox p.1) (d.gtBox p.2))).sum

/-- DETR.get_loss over a batch: sum_losses starts at zero, the loop adds
each image loss, and the accumulated sum is divided once, after the loop,
by batch_size times num_query_slots. -/
noncomputable def get_loss (num_query_slots : ℕ)
    (no_obj_weight l1_weight giou_weight : ℝ) (batch : List ImageData) : ℝ :=
  (batch.foldl
      (fun acc d => acc + perImageLoss num_query_slots no_obj_weight l1_weight giou_weight d)
      0)
    / ((batch.length : ℝ) * (num_query_slots : ℝ))

/-! ## Prediction heads -/

/-- A fully connected layer: nn.Linear(n, m) with weights W and bias b. -/
noncomputable def linearLayer {m n : ℕ} (W : Fin m → Fin n → ℝ) (b : Fin m → ℝ)
    (x : Fin n → ℝ) : Fin m → ℝ :=
  fun i => (∑ j, W i j * x j) + b i

/-- nn.ReLU. -/
def relu (x : ℝ) : ℝ := max 0 x

/-- nn.Sigmoid. -/
noncomputable def sigmoid (x : ℝ) : ℝ := 1 / (1 + Real.exp (-x))

/-- nn.Softmax along the class dimension. -/
noncomputable def softmax {k : ℕ} (z : Fin k → ℝ) : Fin k → ℝ :=
  fun i => Real.exp (z i) / ∑ j, Real.exp (z j)

/-- Number of outputs of the class head: the source builds it as
nn.Sequential(nn.Linear(width, num_classes), nn.Softmax(dim=-1)), so the
output dimension is num_classes, with no extra label. -/
def clsOutputDim (num_classes : ℕ) : ℕ := num_classes

/-- DETR.cls_ffn: a single linear layer followed by softmax, applied to one
slot embedding. -/
noncomputable def cls_ffn {width num_classes : ℕ}
    (W : Fin (clsOutputDim num_classes) → Fin width → ℝ)
    (b : Fin (clsOutputDim num_classes) → ℝ) (x : Fin width → ℝ) :
    Fin (clsOutputDim num_classes) → ℝ :=
  softmax (linearLayer W b x)

/-- DETR.bbox_ffn: Linear, ReLU, Linear, ReLU, Linear(width, 4), Sigmoid,
applied to one slot embedding. -/
noncomputable def bbox_ffn {width : ℕ}
    (W1 : Fin width → Fin width → ℝ) (b1 : Fin width → ℝ)
    (W2 : Fin width → Fin width → ℝ) (b2 : Fin width → ℝ)
    (W3 : Fin 4 → Fin width → ℝ) (b3 : Fin 4 → ℝ)
    (x : Fin width → ℝ) : Fin 4 → ℝ :=
  fun i =>
    sigmoid (linearLayer W3 b3
      (fun j => relu (linearLayer W2 b2
        (fun j2 => relu (linearLayer W1 b1 x j2)) j)) i)

/-- The 4 outputs of the box head read as a center/size box
(cx, cy, w, h). -/
def predBoxOf (o : Fin 4 → ℝ) : Box ℝ := ⟨o 0, o 1, o 2, o 3⟩

/-- Modelled from the spec: the condition under which to_corners fails with
InvalidBoxError (spec 4.1 and 7): a negative width or height. -/
def invalidBox (b : Box ℝ) : Prop := b.w < 0 ∨ b.h < 0

/-! ## Helper lemmas on list sums -/

theorem foldl_add_eq_sum {γ : Type} (f : γ → ℝ) (l : List γ) (a : ℝ) :
    l.foldl (fun acc d => acc + f d) a = a + (l.map f).sum := by
  induction l generalizing a with
  | nil => simp
  | cons x xs ih =>
    simp only [List.foldl_cons, List.map_cons, List.sum_cons, ih]
    ring

theorem sum_map_sub {γ : Type} (f g : γ → ℝ) (l : List γ) :
    (l.map f).sum - (l.map g).sum = (l.map (fun x => f x - g x)).sum := by
  induction l with
  | nil => simp
  | cons x xs ih =>
    simp only [List.map_cons, List.sum_cons]
    linarith

theorem sum_map_pos {γ : Type} (f : γ → ℝ) (l : List γ)
    (hnn : ∀ x ∈ l, 0 ≤ f x) {x : γ} (hx : x ∈ l) (hpos : 0 < f x) :
    0 < (l.map f).sum := by
  have hle : f x ≤ (l.map f).sum := by
    refine List.single_le_sum ?_ _ (List.mem_map_of_mem f hx)
    intro y hy
    obtain ⟨z, hz, rfl⟩ := List.mem_map.mp hy
    exact hnn z hz
  linarith

/-! ## Claim theorems on the loss composer and heads -/

/-- C2: the batch loss returned by get_loss is the sum of the per-image
losses divided exactly once, after the loop over images, by
batch_size times num_query_slots; no per-image division occurs. -/
theorem get_loss_normalization (num_query_slots : ℕ) (wn wl wg : ℝ)
    (batch : List ImageData) :
    get_loss num_query_slots wn wl wg batch
      = (batch.map (perImageLoss num_query_slots wn wl wg)).sum
        / ((batch.length : ℝ) * (num_query_slots : ℝ)) := by
  rw [get_loss, foldl_add_eq_sum, zero_add]

/-- C3: for every image, slot i and object j, the matching-cost entry is
the negated raw probability of the target class plus the GIoU loss
1 - giou, with no L1 term. -/
theorem matchCost_spec (d : ImageData) (i j : ℕ) :
    matchCost d i j
      = -(d.predProb i (d.label j))
        + (1 - giou (to_corners (d.gtBox j)) (to_corners (d.predBox i))) := by
  rw [matchCost, giou_loss_pair, giou_comm]

/-- C7: for an image with no ground-truth objects the assignment is empty
and the whole per-image (matched-pair) loss contribution is exactly zero;
nothing fails. -/
theorem loss_no_objects (num_query_slots : ℕ) (wn wl wg : ℝ) (d : ImageData)
    (h : d.M = 0) :
    matchedPairs num_query_slots d = [] ∧
      perImageLoss num_query_slots wn wl wg d = 0 := by
  have hpairs : matchedPairs num_query_slots d = [] := by
    rw [matchedPairs, h, linear_sum_assignment, if_pos (Nat.zero_le _)]
    have hall : allAssignments num_query_slots 0 = [[]] := rfl
    rw [hall, List.argmin_singleton]
    rfl
  refine ⟨hpairs, ?_⟩
  rw [perImageLoss, hpairs]
  simp

/-- An image record with zero ground-truth objects, for the C7 witness. -/
def emptyImage : ImageData :=
  ⟨0, fun _ => 0, fun _ => ⟨0, 0, 0, 0⟩, fun _ => ⟨0, 0, 0, 0⟩, fun _ _ => 0⟩

/-- Witness for C7 at a concrete image with zero objects and 100 slots. -/
theorem loss_no_objects_witness :
    emptyImage.M = 0 ∧
    (matchedPairs 100 emptyImage = [] ∧ perImageLoss 100 (1 / 10) 5 2 emptyImage = 0) :=
  ⟨rfl, loss_no_objects 100 (1 / 10) 5 2 emptyImage rfl⟩

/-- C9: every component the box head emits lies in the unit interval,
because the head ends in a sigmoid; in particular the predicted width and
height are nonnegative, so the InvalidBoxError condition is unreachable
for model predictions. -/
theorem bbox_head_in_unit_box {width : ℕ}
    (W1 : Fin width → Fin width → ℝ) (b1 : Fin width → ℝ)
    (W2 : Fin width → Fin width → ℝ) (b2 : Fin width → ℝ)
    (W3 : Fin 4 → Fin width → ℝ) (b3 : Fin 4 → ℝ) (x : Fin width → ℝ) :
    (∀ i, 0 ≤ bbox_ffn W1 b1 W2 b2 W3 b3 x i ∧ bbox_ffn W1 b1 W2 b2 W3 b3 x i ≤ 1) ∧
      ¬ invalidBox (predBoxOf (bbox_ffn W1 b1 W2 b2 W3 b3 x)) := by
  have hsig : ∀ t : ℝ, 0 ≤ sigmoid t ∧ sigmoid t ≤ 1 := by
    intro t
    have he : 0 < Real.exp (-t) := Real.exp_pos _
    constructor
    · exact le_of_lt (div_pos one_pos (by linarith))
    · rw [sigmoid, div_le_one (by linarith)]
      linarith
  refine ⟨fun i => hsig _, ?_⟩
  rw [invalidBox, predBoxOf]
  rintro (hlt | hlt) <;> exact absurd hlt (not_lt.mpr (hsig _).1)

/-- C10: in exact real arithmetic every probability the class head emits
is strictly positive and at most one, each slot distribution sums to one,
and therefore every -log(label_prob) term of get_loss is a well-defined
nonnegative real, even without clamping. -/
theorem cls_head_distribution {width num_classes : ℕ}
    (W : Fin (clsOutputDim num_classes) → Fin width → ℝ)
    (b : Fin (clsOutputDim num_classes) → ℝ) (x : Fin width → ℝ)
    (i : Fin (clsOutputDim num_classes)) :
    0 < cls_ffn W b x i ∧ cls_ffn W b x i ≤ 1 ∧
      (∑ i2, cls_ffn W b x i2) = 1 ∧ 0 ≤ -Real.log (cls_ffn W b x i) := by
  have hne : Nonempty (Fin (clsOutputDim num_classes)) := ⟨i⟩
  have hsum : 0 < ∑ j, Real.exp (linearLayer W b x j) :=
    Finset.sum_pos (fun j _ => Real.exp_pos _) Finset.univ_nonempty
  have hpos : 0 < cls_ffn W b x i := div_pos (Real.exp_pos _) hsum
  have hle : cls_ffn W b x i ≤ 1 := by
    simp only [cls_ffn, softmax]
    rw [div_le_one hsum]
    exact Finset.single_le_sum (fun j _ => (Real.exp_pos (linearLayer W b x j)).le)
      (Finset.mem_univ i)
  refine ⟨hpos, hle, ?_, ?_⟩
  · simp only [cls_ffn, softmax]
    rw [← Finset.sum_div, div_self hsum.ne']
  · rw [neg_nonneg]
    exact Real.log_nonpos hpos.le hle

/-! ## Monotonicity in giou_weight (C8) -/

/-- Sum of the GIoU losses over the matched pairs of one image: the factor
multiplied by giou_weight in the loop body of get_loss. -/
noncomputable def giouSum (num_query_slots : ℕ) (d : ImageData) : ℝ :=
  ((matchedPairs num_query_slots d).map
    (fun p => giou_loss_pair (d.predBox p.1) (d.gtBox p.2))).sum

theorem perImageLoss_giou_linear (nqs : ℕ) (wn wl w1 w2 : ℝ) (d : ImageData) :
    perImageLoss nqs wn wl w2 d - perImageLoss nqs wn wl w1 d
      = (w2 - w1) * giouSum nqs d := by
  rw [perImageLoss, perImageLoss, giouSum]
  ring

/-- The data-model invariant for one image: every predicted and
ground-truth box has nonnegative width and height. -/
def validImage (d : ImageData) : Prop :=
  ∀ i, 0 ≤ (d.predBox i).w ∧ 0 ≤ (d.predBox i).h ∧ 0 ≤ (d.gtBox i).w ∧ 0 ≤ (d.gtBox i).h

theorem giouSum_nonneg (nqs : ℕ) (d : ImageData) (h : validImage d) :
    0 ≤ giouSum nqs d := by
  refine List.sum_nonneg ?_
  intro y hy
  obtain ⟨p, hp, rfl⟩ := List.mem_map.mp hy
  exact giou_loss_pair_nonneg (h p.1).1 (h p.1).2.1 (h p.2).2.2.1 (h p.2).2.2.2

/-- C8: with the image, ground truth, predictions and the other weights
fixed, increasing giou_weight strictly increases the batch loss as soon as
some image of the batch has a matched pair with strictly positive GIoU
loss (an imperfectly matched box pair); the assignment itself never
depends on giou_weight, since matchCost does not mention it. -/
theorem get_loss_mono_giou_weight (nqs : ℕ) (wn wl w1 w2 : ℝ)
    (batch : List ImageData) (hnqs : 0 < nqs) (hw : w1 < w2)
    (hvalid : ∀ d ∈ batch, validImage d)
    (himp : ∃ d ∈ batch, ∃ p ∈ matchedPairs nqs d,
      0 < giou_loss_pair (d.predBox p.1) (d.gtBox p.2)) :
    get_loss nqs wn wl w1 batch < get_loss nqs wn wl w2 batch := by
  obtain ⟨d0, hd0, p0, hp0, hpos0⟩ := himp
  have hBpos : 0 < (batch.length : ℝ) := by
    exact_mod_cast List.length_pos.mpr (List.ne_nil_of_mem hd0)
  have hNpos : 0 < (nqs : ℝ) := by exact_mod_cast hnqs
  have hS0 : 0 < giouSum nqs d0 := by
    refine sum_map_pos _ _ ?_ hp0 hpos0
    intro q hq
    exact giou_loss_pair_nonneg ((hvalid d0 hd0) q.1).1 ((hvalid d0 hd0) q.1).2.1
      ((hvalid d0 hd0) q.2).2.2.1 ((hvalid d0 hd0) q.2).2.2.2
  have hSpos : 0 < (batch.map (giouSum nqs)).sum :=
    sum_map_pos (giouSum nqs) batch (fun d hd => giouSum_nonneg nqs d (hvalid d hd)) hd0 hS0
  have hdiff : get_loss nqs wn wl w2 batch - get_loss nqs wn wl w1 batch
      = ((w2 - w1) * (batch.map (giouSum nqs)).sum)
        / ((batch.length : ℝ) * (nqs : ℝ)) := by
    rw [get_loss, get_loss, foldl_add_eq_sum, foldl_add_eq_sum, zero_add, zero_add,
      div_sub_div_same, sum_map_sub]
    congr 1
    have hfun : (fun d => perImageLoss nqs wn wl w2 d - perImageLoss nqs wn wl w1 d)
        = fun d => (w2 - w1) * giouSum nqs d :=
      funext (perImageLoss_giou_linear nqs wn wl w1 w2)
    rw [hfun, List.sum_map_mul_left]
  have hlt : 0 < get_loss nqs wn wl w2 batch - get_loss nqs wn wl w1 batch := by
    rw [hdiff]
    exact div_pos (mul_pos (sub_pos.mpr hw) hSpos) (mul_pos hBpos hNpos)
  linarith

/-- For an image with exactly one ground truth object and one query slot
the solver has a single candidate assignment, so the matched pairs are
just the pair of slot 0 with object 0. -/
theorem matchedPairs_one (d : ImageData) (h : d.M = 1) :
    matchedPairs 1 d = [(0, 0)] := by
  rw [matchedPairs, h, linear_sum_assignment, if_pos (le_refl 1)]
  have hall : allAssignments 1 1 = [[0]] := rfl
  rw [hall, List.argmin_singleton]
  rfl

/-- A one-slot, one-object image whose predicted box (centered at (1/2,1/2)
with unit extent) and ground-truth box (centered at (5/2,1/2)) are disjoint:
its single matched pair has GIoU loss 4/3, strictly positive. -/
noncomputable def monoImage : ImageData :=
  ⟨1, fun _ => 0, fun _ => ⟨5 / 2, 1 / 2, 1, 1⟩, fun _ => ⟨1 / 2, 1 / 2, 1, 1⟩,
    fun _ _ => 1 / 2⟩

theorem monoImage_pair_pos :
    0 < giou_loss_pair (monoImage.predBox 0) (monoImage.gtBox 0) := by
  norm_num [monoImage, giou_loss_pair, giou, iou, union_area, intersection_area,
    area, enclosing_box, to_corners, min_def, max_def]

/-- Witness for C8: a concrete one-image batch with an imperfectly matched
pair, giou_weight raised from 1 to 2, all hypotheses discharged
concretely. -/
theorem get_loss_mono_giou_weight_witness :
    0 < 1 ∧ (1 : ℝ) < 2 ∧ (∀ d ∈ [monoImage], validImage d) ∧
    (∃ d ∈ [monoImage], ∃ p ∈ matchedPairs 1 d,
      0 < giou_loss_pair (d.predBox p.1) (d.gtBox p.2)) ∧
    get_loss 1 (1 / 10) 5 1 [monoImage] < get_loss 1 (1 / 10) 5 2 [monoImage] := by
  have hval : ∀ d ∈ [monoImage], validImage d := by
    intro d hd
    rw [List.mem_singleton] at hd
    subst hd
    intro i
    refine ⟨?_, ?_, ?_, ?_⟩ <;> norm_num [monoImage]
  have hex : ∃ d ∈ [monoImage], ∃ p ∈ matchedPairs 1 d,
      0 < giou_loss_pair (d.predBox p.1) (d.gtBox p.2) := by
    refine ⟨monoImage, List.mem_singleton_self _, (0, 0), ?_, monoImage_pair_pos⟩
    rw [matchedPairs_one monoImage rfl]
    exact List.mem_singleton_self _
  exact ⟨Nat.one_pos, by norm_num, hval, hex,
    get_loss_mono_giou_weight 1 (1 / 10) 5 1 2 [monoImage] Nat.one_pos (by norm_num)
      hval hex⟩

/-! ## Code-bug exhibits (C1 and C6) -/

/-- A one-slot, one-object image with identical predicted and ground-truth
boxes and predicted probability 1/2 on the target class. -/
noncomputable def c1Image : ImageData :=
  ⟨1, fun _ => 0, fun _ => ⟨1 / 2, 1 / 2, 1, 1⟩, fun _ => ⟨1 / 2, 1 / 2, 1, 1⟩,
    fun _ _ => 1 / 2⟩

/-- C1 (code-bug exhibit): at a concrete one-slot, one-object input with
label probability 1/2 and a perfectly predicted box, the whole per-image
loss equals no_obj_weight times log 2 for every choice of the three
weights.  So the matched pair's -log(label_prob) term is the one scaled by
no_obj_weight, no clamping is applied to the probability, and no separate
no-object term for unmatched slots exists (the claim instead puts the
matched -log term in unweighted and no_obj_weight only on the
unmatched-slot no-object contribution). -/
theorem cls_term_weighted_by_no_obj_weight (wn wl wg : ℝ) :
    perImageLoss 1 wn wl wg c1Image = wn * Real.log 2 := by
  rw [perImageLoss, matchedPairs_one c1Image rfl]
  have hbox : giou_loss_pair (c1Image.predBox 0) (c1Image.gtBox 0) = 0 := by
    norm_num [c1Image, giou_loss_pair, giou, iou, union_area, intersection_area,
      area, enclosing_box, to_corners, min_def, max_def]
  have hl1 : l1Box (c1Image.predBox 0) (c1Image.gtBox 0) = 0 := by
    norm_num [c1Image, l1Box]
  have hlog : -Real.log (c1Image.predProb 0 (c1Image.label 0)) = Real.log 2 := by
    have h2 : c1Image.predProb 0 (c1Image.label 0) = 2⁻¹ := by
      norm_num [c1Image]
    rw [h2, Real.log_inv]
    ring
  simp only [List.map_cons, List.map_nil, List.sum_cons, List.sum_nil, hbox, hl1, hlog]
  ring

/-- C6 (code-bug exhibit): the class head built as
nn.Sequential(nn.Linear(width, num_classes), nn.Softmax(dim=-1)) emits, at
the default num_classes = 80, a distribution over exactly 80 labels and
not over 80 + 1; no reserved no-object label exists in its output. -/
theorem cls_head_output_dim : clsOutputDim 80 = 80 ∧ clsOutputDim 80 ≠ 80 + 1 := by
  decide

end DETRCore
